import Mathlib

/-!
# Sort-Spotify-Data: the counting index, its ranking and its lookup

A shallow embedding of `src/main.cpp`.

* A C++ `std::string` is a list of characters (`Str`), one for each `char`;
  `std::less<string>` is the lexicographic order on such lists and
  `std::equal_to<string>` is equality.
* An input stream (`ifstream`, `istringstream`) is the text that is still unread together
  with its `eofbit` and `failbit`; `std::getline` is written out on that state.
* `std::map<string,int>` is the list of its entries in iteration order; the operations
  compare keys with `<` only, as the red-black tree does.
* `std::unordered_map<string,int>` is the list of its entries in iteration order. That
  order is implementation defined, so the place a new key takes is left to a
  `HashLayout` parameter and every theorem holds for all layouts.
* An `int` is an integer in the 32-bit two's-complement range. The increment of a
  counter wraps from `2^31 - 1` to `-2^31` (`nextCount`), as the compiled program does;
  the theorems that give exact counts state that the file has fewer than `2^31` data
  rows.
* `cout` is the list of the entry lines and messages written. The menu texts, the
  prompts, the blank lines and the lines that report elapsed time (they depend on the
  clock) are left out.
* The answers read from `cin` are arguments: a menu answer is the integer that `stoi`
  gives, a search text is a string.
-/

namespace SpotifySort

/-- A C++ `std::string`. -/
abbrev Str := List Char

/-- A `pair<string,int>`: a key and its number of streams. -/
abbrev Entry := Str × Int

/-! ## Input streams and `std::getline` -/

/-- An input stream: the unread characters and the two state bits the program tests. -/
structure IStream where
  buf : Str
  eofbit : Bool
  failbit : Bool
deriving DecidableEq, Repr

/-- A freshly opened stream over `content` (an `istringstream`, or an `ifstream` whose
file could be opened). -/
def IStream.ofString (content : Str) : IStream := ⟨content, false, false⟩

/-- The stream's `good()`. -/
def IStream.good (s : IStream) : Bool := !s.eofbit && !s.failbit

/-- Extraction of characters up to the delimiter: the characters stored, and the text left
after the delimiter (which is extracted and thrown away), or `none` when the end of the
input is reached first. -/
def readUntil (delim : Char) : Str → Str × Option Str
  | [] => ([], none)
  | c :: cs =>
    if c = delim then ([], some cs)
    else (c :: (readUntil delim cs).1, (readUntil delim cs).2)

/-- The call `getline(is, str, delim)`. When the stream is not good the sentry fails: the
failbit is set and `str` is left as it was. Otherwise `str` is erased and filled up to the
delimiter; reaching the end of input sets the eofbit, and the failbit too when nothing at
all was extracted. -/
def getline (is : IStream) (str : Str) (delim : Char) : IStream × Str :=
  if is.good then
    match readUntil delim is.buf with
    | (chars, some rest) => (⟨rest, is.eofbit, is.failbit⟩, chars)
    | (chars, none) => (⟨[], true, chars.isEmpty⟩, chars)
  else (⟨is.buf, is.eofbit, true⟩, str)

/-! ## Header resolution and key extraction (lines 110-132 and 160-182) -/

/-- The loop `while (getline(headerStream, header, '\t')) headers.push_back(header);`.
The first argument bounds the number of iterations. -/
def readHeaders : Nat → IStream → Str → List Str → List Str
  | 0, _, _, headers => headers
  | fuel + 1, headerStream, header, headers =>
    if (getline headerStream header '\t').1.failbit then headers
    else readHeaders fuel (getline headerStream header '\t').1
      (getline headerStream header '\t').2 (headers ++ [(getline headerStream header '\t').2])

/-- The header names of a header line, as the program collects them. -/
def headersOf (line : Str) : List Str :=
  readHeaders (line.length + 2) (IStream.ofString line) [] []

/-- The expression `find(headers.begin(), headers.end(), keySignifier) - headers.begin()`:
the position of the first equal element, the length when there is none. -/
def findIndex (keySignifier : Str) : List Str → Nat
  | [] => 0
  | h :: rest => if h = keySignifier then 0 else findIndex keySignifier rest + 1

/-- The loop `for (...) getline(sstream, key, '\t');` run `n` times. -/
def extractKey : Nat → IStream → Str → Str
  | 0, _, key => key
  | n + 1, sstream, key =>
    extractKey n (getline sstream key '\t').1 (getline sstream key '\t').2

/-- The key the program takes from one data line: `keyIndex + 1` calls of `getline` on a
fresh `istringstream` over the line, starting from an empty `key`. -/
def rowKey (keyIndex : Nat) (line : Str) : Str :=
  extractKey (keyIndex + 1) (IStream.ofString line) []

/-! ## The `int` counter -/

/-- The 32-bit two's-complement `int` that is congruent to `x` modulo `2^32`. -/
def wrapInt32 (x : Int) : Int := (x + 2147483648) % 4294967296 - 2147483648

/-- The value of an `int` counter after `++`: one more, wrapping at `2^31`. -/
def nextCount (v : Int) : Int := wrapInt32 (v + 1)

/-! ## The ordered map -/

/-- The effect of `operator[]` on a `std::map`: a missing key is inserted with the value
`0` at its place in the key order, a present key changes nothing. -/
def OrderedMap.insertDefault (k : Str) : List Entry → List Entry
  | [] => [(k, 0)]
  | e :: rest =>
    if k < e.1 then (k, 0) :: e :: rest
    else if e.1 < k then e :: OrderedMap.insertDefault k rest
    else e :: rest

/-- The value stored under `k` in a `std::map`, `0` when there is none. -/
def OrderedMap.valueAt (k : Str) : List Entry → Int
  | [] => 0
  | e :: rest =>
    if k < e.1 then 0
    else if e.1 < k then OrderedMap.valueAt k rest
    else e.2

/-- A write of `v` through the reference that `operator[]` returned for `k`. -/
def OrderedMap.assign (k : Str) (v : Int) : List Entry → List Entry
  | [] => []
  | e :: rest =>
    if k < e.1 then e :: rest
    else if e.1 < k then e :: OrderedMap.assign k v rest
    else (e.1, v) :: rest

/-- The statement `countMap[key]++;` on a `std::map`. -/
def OrderedMap.increment (key : Str) (countMap : List Entry) : List Entry :=
  OrderedMap.assign key
    (nextCount (OrderedMap.valueAt key (OrderedMap.insertDefault key countMap)))
    (OrderedMap.insertDefault key countMap)

/-! ## The unordered map -/

/-- The iteration order of an `unordered_map` after a new element went in: some
rearrangement of the elements, fixed by the hash function and the bucket count. -/
structure HashLayout where
  arrange : List Entry → List Entry
  perm : ∀ l, List.Perm (arrange l) l

/-- The layout that keeps a new element in front of the older ones. -/
def HashLayout.front : HashLayout := ⟨fun l => l, fun l => List.Perm.refl l⟩

/-- The layout that puts a new element behind the older ones. -/
def HashLayout.back : HashLayout := ⟨fun l => l.rotate 1, fun l => List.rotate_perm l 1⟩

/-- Whether an `unordered_map` holds the key. -/
def UnorderedMap.contains (k : Str) : List Entry → Bool
  | [] => false
  | e :: rest => if e.1 = k then true else UnorderedMap.contains k rest

/-- The effect of `operator[]` on an `unordered_map`: a missing key is inserted with the
value `0`, a present key changes nothing. -/
def UnorderedMap.insertDefault (H : HashLayout) (k : Str) (m : List Entry) : List Entry :=
  if UnorderedMap.contains k m then m else H.arrange ((k, 0) :: m)

/-- The value stored under `k` in an `unordered_map`, `0` when there is none. -/
def UnorderedMap.valueAt (k : Str) : List Entry → Int
  | [] => 0
  | e :: rest => if e.1 = k then e.2 else UnorderedMap.valueAt k rest

/-- A write of `v` through the reference that `operator[]` returned for `k`. -/
def UnorderedMap.assign (k : Str) (v : Int) : List Entry → List Entry
  | [] => []
  | e :: rest => if e.1 = k then (e.1, v) :: rest else e :: UnorderedMap.assign k v rest

/-- The statement `countMap[key]++;` on an `unordered_map`. -/
def UnorderedMap.increment (H : HashLayout) (key : Str) (countMap : List Entry) :
    List Entry :=
  UnorderedMap.assign key
    (nextCount (UnorderedMap.valueAt key (UnorderedMap.insertDefault H key countMap)))
    (UnorderedMap.insertDefault H key countMap)

/-! ## Building an index (lines 98-143 and 147-193) -/

/-- The loop `while (getline(file, line)) { ...; countMap[key]++; }`, with the statement
`countMap[key]++` passed as `bump`. The first argument bounds the number of iterations. -/
def countLoop {M : Type} (bump : Str → M → M) (keyIndex : Nat) :
    Nat → IStream → Str → M → M
  | 0, _, _, countMap => countMap
  | fuel + 1, file, line, countMap =>
    if (getline file line '\n').1.failbit then countMap
    else countLoop bump keyIndex fuel (getline file line '\n').1 (getline file line '\n').2
      (bump (rowKey keyIndex (getline file line '\n').2) countMap)

/-- The body that `createOrderedMap` and `createUnorderedMap` share word for word, with
the map type left open: `empty` is the map as declared and `bump` is `countMap[key]++`.
The argument `content` is the text of the file, `none` when it cannot be opened. -/
def buildIndex {M : Type} (empty : M) (bump : Str → M → M) (content : Option Str)
    (keySignifier : Str) : M :=
  match content with
  | none => empty
  | some text =>
    countLoop bump
      (findIndex keySignifier (headersOf (getline (IStream.ofString text) [] '\n').2))
      ((getline (IStream.ofString text) [] '\n').1.buf.length + 2)
      (getline (IStream.ofString text) [] '\n').1
      (getline (IStream.ofString text) [] '\n').2
      empty

/-- The function `createOrderedMap(fileName, keySignifier)`. -/
def createOrderedMap (file : Option Str) (keySignifier : Str) : List Entry :=
  buildIndex [] OrderedMap.increment file keySignifier

/-- The function `createUnorderedMap(fileName, keySignifier)`. -/
def createUnorderedMap (H : HashLayout) (file : Option Str) (keySignifier : Str) :
    List Entry :=
  buildIndex [] (UnorderedMap.increment H) file keySignifier

/-! ## Lines and fields of a text -/

/-- The pieces of a text between the occurrences of a separator, empty pieces kept: a text
with `m` separators has `m + 1` pieces. -/
def pieces (sep : Char) : Str → List Str
  | [] => [[]]
  | c :: cs =>
    if c = sep then [] :: pieces sep cs
    else match pieces sep cs with
      | [] => [[c]]
      | p :: ps => (c :: p) :: ps

/-- The tab-separated fields of a line. -/
def fields (line : Str) : List Str := pieces '\t' line

/-- A list of pieces without its last piece when that one is empty. -/
def dropTrailingEmpty : List Str → List Str
  | [] => []
  | [p] => if p = [] then [] else [p]
  | p :: q :: ps => p :: dropTrailingEmpty (q :: ps)

/-- The lines of a text file: the pieces between newlines, where a newline at the very end
ends the last line and does not start another one. -/
def fileLines (text : Str) : List Str := dropTrailingEmpty (pieces '\n' text)

/-- The header line of a file, empty for an empty file. -/
def headerLine (text : Str) : Str := (fileLines text).headD []

/-- The data rows of a file: its lines after the first. -/
def dataRows (text : Str) : List Str := (fileLines text).tail

/-! ## Reading a map -/

/-- The keys of a map in iteration order. -/
def keysOf (m : List Entry) : List Str := m.map Prod.fst

/-- The representation invariant of a `std::map`: the keys are strictly increasing. -/
def OrderedMap.WF (m : List Entry) : Prop := (keysOf m).Pairwise (fun a b => a < b)

instance OrderedMap.decidableWF (m : List Entry) : Decidable (OrderedMap.WF m) := by
  unfold OrderedMap.WF
  infer_instance

/-- The representation invariant of an `unordered_map`: no key occurs twice. -/
def UnorderedMap.WF (m : List Entry) : Prop := (keysOf m).Nodup

instance UnorderedMap.decidableWF (m : List Entry) : Decidable (UnorderedMap.WF m) := by
  unfold UnorderedMap.WF
  infer_instance

/-- The map `m` holds, for every key, the number of times the key occurs in `ks`, and
holds no key that does not occur in `ks`. -/
def Tally (m : List Entry) (ks : List Str) : Prop :=
  ∀ k n, (k, n) ∈ m ↔ (0 < n ∧ n = (ks.count k : Int))

/-- The map `m` holds exactly the keys that occur in `ks`, each with the `int` that a
counter shows after as many increments as the key has occurrences in `ks`. -/
def WrapTally (m : List Entry) (ks : List Str) : Prop :=
  ∀ k n, (k, n) ∈ m ↔ (k ∈ ks ∧ n = wrapInt32 (ks.count k : Int))

/-- The position the program resolves for a key field name in a file (`keyIndex`). -/
def keyIndexOf (text keySignifier : Str) : Nat :=
  findIndex keySignifier (headersOf (headerLine text))

/-- The keys the build loop counts, one for each data row, in the order of the rows. -/
def countedKeys (text keySignifier : Str) : List Str :=
  (dataRows text).map (rowKey (keyIndexOf text keySignifier))

/-! ## Sample inputs -/

/-- A small export: three streams of two songs by two artists. -/
def sampleFile : Str :=
  ("master_metadata_track_name\tmaster_metadata_album_artist_name\n" ++
    "Song A\tQueen\nSong B\tABBA\nSong A\tQueen\n").toList

/-- The name of the song column. -/
def trackField : Str := "master_metadata_track_name".toList

/-- The name of the artist column. -/
def artistField : Str := "master_metadata_album_artist_name".toList

/-- The sum of all counts of an index. -/
def sumCounts (m : List Entry) : Int := (m.map Prod.snd).sum

/-- The number of data rows that have a field at the resolved key position. -/
def validRows (text keySignifier : Str) : Nat :=
  (dataRows text).countP (fun r => decide (keyIndexOf text keySignifier < (fields r).length))

/-- The number of data rows too short to have a field at the resolved key position. -/
def shortRows (text keySignifier : Str) : Nat :=
  (dataRows text).countP (fun r => decide ((fields r).length ≤ keyIndexOf text keySignifier))

/-- A file whose only data row has one field, under a header of two names. -/
def shortRowFile : Str := "a\tb\nx\n".toList

/-! ## Ranking and printing (lines 28-95) -/

/-- The comparison handed to `sort`: `a.second > b.second`. -/
def byStreams (a b : Entry) : Bool := decide (a.2 > b.2)

/-- One step of insertion sort: `x` moves in front of the first element it must precede. -/
def sortInsert (comp : Entry → Entry → Bool) (x : Entry) : List Entry → List Entry
  | [] => [x]
  | y :: ys => if comp x y then x :: y :: ys else y :: sortInsert comp x ys

/-- The library call `sort(first, last, comp)`. The standard fixes its result up to the
order of elements that `comp` does not separate; the model is insertion sort, which takes
the elements from left to right. -/
def stdSort (comp : Entry → Entry → Bool) (v : List Entry) : List Entry :=
  v.foldl (fun sorted x => sortInsert comp x sorted) []

/-- The function `unordered_mapToVector(inputMap)`: the entries in iteration order, then
sorted by `byStreams`. -/
def unordered_mapToVector (inputMap : List Entry) : List Entry := stdSort byStreams inputMap

/-- The function `ordered_mapToVector(inputMap)`: the entries in iteration order, then
sorted by `byStreams`. -/
def ordered_mapToVector (inputMap : List Entry) : List Entry := stdSort byStreams inputMap

/-- The line `cout << pair.first << ": " << pair.second << endl`. -/
def entryLine (pair : Entry) : Str := pair.1 ++ ": ".toList ++ (toString pair.2).toList

/-- The loop of `printVector`: `count` is the local counter and `out` the lines written so
far; the `else` branch is the `break`. -/
def printVectorLoop (counter : Int) : List Entry → Int → List Str → List Str
  | [], _, out => out
  | pair :: rest, count, out =>
    if count < counter then printVectorLoop counter rest (count + 1) (out ++ [entryLine pair])
    else out

/-- The function `printVector(inputVector, counter)`: the lines it writes. -/
def printVector (inputVector : List Entry) (counter : Int) : List Str :=
  printVectorLoop counter inputVector 0 []

/-- The function `printUnorderedMap(inputMap)`: the entry lines it writes. -/
def printUnorderedMap (inputMap : List Entry) : List Str := inputMap.map entryLine

/-- The function `printOrderedMap(inputMap)`: the entry lines it writes. -/
def printOrderedMap (inputMap : List Entry) : List Str := inputMap.map entryLine

/-! ## The menu loop of `main` (lines 208-623)

The state of the loop is the four maps. Each request below is one branch of the outer
`switch`, taken with the answers already read from `cin`; it gives the next state and the
messages written after those answers were read. -/

/-- The four maps declared at the start of `main`. -/
structure Session where
  songUnorderedMap : List Entry
  artistUnorderedMap : List Entry
  songMap : List Entry
  artistMap : List Entry
deriving DecidableEq

/-- The state when the menu loop starts: all four maps empty. -/
def Session.initial : Session := ⟨[], [], [], []⟩

/-- The message of a create request on a map that holds entries. -/
def alreadyCreated : List Str := ["This map has already been created!".toList]

/-- The message of an output request on an empty map. -/
def notCreatedYet : List Str := ["This map has not been created yet!".toList]

/-- The message of a sub-menu answer that no `case` takes. -/
def invalidInput : List Str := ["Invalid Input!".toList]

/-- Menu option 1, create an unordered map, with the sub-menu answer `operation`. -/
def createUnorderedRequest (H : HashLayout) (directory : Option Str) (operation : Int)
    (s : Session) : Session × List Str :=
  if operation = 1 then
    if s.songUnorderedMap.isEmpty then
      (⟨createUnorderedMap H directory trackField, s.artistUnorderedMap, s.songMap,
        s.artistMap⟩, [])
    else (s, alreadyCreated)
  else if operation = 2 then
    if s.artistUnorderedMap.isEmpty then
      (⟨s.songUnorderedMap, createUnorderedMap H directory artistField, s.songMap,
        s.artistMap⟩, [])
    else (s, alreadyCreated)
  else (s, invalidInput)

/-- Menu option 2, create an ordered map, with the sub-menu answer `operation`. -/
def createOrderedRequest (directory : Option Str) (operation : Int) (s : Session) :
    Session × List Str :=
  if operation = 1 then
    if s.songMap.isEmpty then
      (⟨s.songUnorderedMap, s.artistUnorderedMap, createOrderedMap directory trackField,
        s.artistMap⟩, [])
    else (s, alreadyCreated)
  else if operation = 2 then
    if s.artistMap.isEmpty then
      (⟨s.songUnorderedMap, s.artistUnorderedMap, s.songMap,
        createOrderedMap directory artistField⟩, [])
    else (s, alreadyCreated)
  else (s, invalidInput)

/-- Menu option 3, output of an unordered map, with the sub-menu answer `operation` and
the number of results read for the answers 1 and 2. -/
def outputUnorderedRequest (operation resultNum : Int) (s : Session) : List Str :=
  if operation = 1 then
    if !s.songUnorderedMap.isEmpty then
      printVector (unordered_mapToVector s.songUnorderedMap) resultNum
    else notCreatedYet
  else if operation = 2 then
    if !s.artistUnorderedMap.isEmpty then
      printVector (unordered_mapToVector s.artistUnorderedMap) resultNum
    else notCreatedYet
  else if operation = 3 then
    if !s.songUnorderedMap.isEmpty then printUnorderedMap s.songUnorderedMap
    else notCreatedYet
  else if operation = 4 then
    if !s.artistUnorderedMap.isEmpty then printUnorderedMap s.artistUnorderedMap
    else notCreatedYet
  else invalidInput

/-- Menu option 4, output of an ordered map, with the sub-menu answer `operation` and the
number of results read for the answers 1 and 2. -/
def outputOrderedRequest (operation resultNum : Int) (s : Session) : List Str :=
  if operation = 1 then
    if !s.songMap.isEmpty then printVector (ordered_mapToVector s.songMap) resultNum
    else notCreatedYet
  else if operation = 2 then
    if !s.artistMap.isEmpty then printVector (ordered_mapToVector s.artistMap) resultNum
    else notCreatedYet
  else if operation = 3 then
    if !s.songMap.isEmpty then printOrderedMap s.songMap else notCreatedYet
  else if operation = 4 then
    if !s.artistMap.isEmpty then printOrderedMap s.artistMap else notCreatedYet
  else invalidInput

/-- The read `streamCount = map[searchInput]` on a `std::map`: the map after the access and
the value read. -/
def OrderedMap.subscript (m : List Entry) (searchInput : Str) : List Entry × Int :=
  (OrderedMap.insertDefault searchInput m,
    OrderedMap.valueAt searchInput (OrderedMap.insertDefault searchInput m))

/-- The read `streamCount = map[searchInput]` on an `unordered_map`: the map after the
access and the value read. -/
def UnorderedMap.subscript (H : HashLayout) (m : List Entry) (searchInput : Str) :
    List Entry × Int :=
  (UnorderedMap.insertDefault H searchInput m,
    UnorderedMap.valueAt searchInput (UnorderedMap.insertDefault H searchInput m))

/-- The answer of a search: the count when it is positive, the not-found message
otherwise. -/
def searchAnswer (streamCount : Int) (notFound : String) : List Str :=
  if streamCount > 0 then ["Number of streams: ".toList ++ (toString streamCount).toList]
  else [notFound.toList]

/-- Menu option 5, search of an unordered map, with the answer `searchNum` and the text
searched for. -/
def searchUnorderedRequest (H : HashLayout) (searchNum : Int) (searchInput : Str)
    (s : Session) : Session × List Str :=
  if searchNum = 1 then
    if s.songUnorderedMap.isEmpty then
      (s, ["Song-sorted map has not yet been created!".toList])
    else
      (⟨(UnorderedMap.subscript H s.songUnorderedMap searchInput).1, s.artistUnorderedMap,
        s.songMap, s.artistMap⟩,
        searchAnswer (UnorderedMap.subscript H s.songUnorderedMap searchInput).2
          "Song Title Not Found!")
  else if searchNum = 2 then
    if s.artistUnorderedMap.isEmpty then
      (s, ["Artist-sorted map has not yet been created!".toList])
    else
      (⟨s.songUnorderedMap, (UnorderedMap.subscript H s.artistUnorderedMap searchInput).1,
        s.songMap, s.artistMap⟩,
        searchAnswer (UnorderedMap.subscript H s.artistUnorderedMap searchInput).2
          "Artist Name Not Found!")
  else (s, [])

/-- Menu option 6, search of an ordered map, with the answer `searchNum` and the text
searched for. -/
def searchOrderedRequest (searchNum : Int) (searchInput : Str) (s : Session) :
    Session × List Str :=
  if searchNum = 1 then
    if s.songMap.isEmpty then (s, ["Song-sorted map has not yet been created!".toList])
    else
      (⟨s.songUnorderedMap, s.artistUnorderedMap,
        (OrderedMap.subscript s.songMap searchInput).1, s.artistMap⟩,
        searchAnswer (OrderedMap.subscript s.songMap searchInput).2 "Song Title Not Found!")
  else if searchNum = 2 then
    if s.artistMap.isEmpty then (s, ["Artist-sorted map has not yet been created!".toList])
    else
      (⟨s.songUnorderedMap, s.artistUnorderedMap, s.songMap,
        (OrderedMap.subscript s.artistMap searchInput).1⟩,
        searchAnswer (OrderedMap.subscript s.artistMap searchInput).2
          "Artist Name Not Found!")
  else (s, [])

/-- The keys the build loop counts for a file, none for a file that cannot be opened. -/
def countedKeysOf (file : Option Str) (keySignifier : Str) : List Str :=
  match file with
  | none => []
  | some text => countedKeys text keySignifier

/-- The state after both song maps were created from the sample export. -/
def sampleSession : Session :=
  (createOrderedRequest (some sampleFile) 1
    (createUnorderedRequest HashLayout.front (some sampleFile) 1 Session.initial).1).1

/-- A file whose header has the names `a` and `b` and whose data row is `x<TAB>y`. -/
def twoColumnFile : Str := "a\tb\nx\ty\n".toList

/-! # Auxiliary lemmas -/

theorem pieces_ne_nil (sep : Char) (s : Str) : pieces sep s ≠ [] := by
  induction s with
  | nil => simp [pieces]
  | cons c cs ih =>
    unfold pieces
    split
    · simp
    · split <;> simp

theorem pieces_eq_splitOnP (sep : Char) (s : Str) :
    pieces sep s = List.splitOnP (fun x => x == sep) s := by
  induction s with
  | nil => simp [pieces]
  | cons c cs ih =>
    unfold pieces
    rw [List.splitOnP_cons]
    by_cases h : c = sep
    · simp [h, ← ih]
    · have h2 : (c == sep) = false := by simpa using h
      simp only [h, h2, if_false]
      rw [← ih]
      cases hp : pieces sep cs with
      | nil => exact absurd hp (pieces_ne_nil sep cs)
      | cons p ps => simp [List.modifyHead]

/-- The pieces are those of the library function `List.splitOn`. -/
theorem pieces_eq_splitOn (sep : Char) (s : Str) : pieces sep s = List.splitOn sep s := by
  rw [pieces_eq_splitOnP]; rfl

theorem readUntil_some (d : Char) (s w r : Str) (h : readUntil d s = (w, some r)) :
    pieces d s = w :: pieces d r := by
  induction s generalizing w with
  | nil => simp [readUntil] at h
  | cons c cs ih =>
    unfold readUntil at h
    by_cases hc : c = d
    · simp [hc] at h
      obtain ⟨rfl, rfl⟩ := h
      simp [pieces, hc]
    · simp only [hc, if_false, Prod.mk.injEq] at h
      obtain ⟨rfl, h2⟩ := h
      have := ih (readUntil d cs).1 (by rw [← h2])
      simp [pieces, hc, this]

theorem readUntil_none (d : Char) (s w : Str) (h : readUntil d s = (w, none)) :
    pieces d s = [w] := by
  induction s generalizing w with
  | nil =>
    simp [readUntil] at h
    simp [pieces, h]
  | cons c cs ih =>
    unfold readUntil at h
    by_cases hc : c = d
    · simp [hc] at h
    · simp only [hc, if_false, Prod.mk.injEq] at h
      obtain ⟨rfl, h2⟩ := h
      have := ih (readUntil d cs).1 (by rw [← h2])
      simp [pieces, hc, this]

theorem readUntil_length (d : Char) (s w r : Str) (h : readUntil d s = (w, some r)) :
    r.length < s.length := by
  induction s generalizing w with
  | nil => simp [readUntil] at h
  | cons c cs ih =>
    unfold readUntil at h
    by_cases hc : c = d
    · simp [hc] at h
      obtain ⟨rfl, rfl⟩ := h
      simp
    · simp only [hc, if_false, Prod.mk.injEq] at h
      obtain ⟨rfl, h2⟩ := h
      have := ih (readUntil d cs).1 (by rw [← h2])
      simp only [List.length_cons]
      omega

theorem getline_fresh (s str : Str) (d : Char) :
    getline ⟨s, false, false⟩ str d =
      match readUntil d s with
      | (chars, some rest) => (⟨rest, false, false⟩, chars)
      | (chars, none) => (⟨[], true, chars.isEmpty⟩, chars) := by
  simp [getline, IStream.good]

theorem getline_at_eof (b str : Str) (f : Bool) (d : Char) :
    getline ⟨b, true, f⟩ str d = (⟨b, true, true⟩, str) := by
  simp [getline, IStream.good]

theorem getline_some (s str w r : Str) (d : Char) (h : readUntil d s = (w, some r)) :
    getline ⟨s, false, false⟩ str d = (⟨r, false, false⟩, w) := by
  rw [getline_fresh, h]

theorem getline_none (s str w : Str) (d : Char) (h : readUntil d s = (w, none)) :
    getline ⟨s, false, false⟩ str d = (⟨[], true, w.isEmpty⟩, w) := by
  rw [getline_fresh, h]

theorem dropTrailingEmpty_cons (w : Str) (ps : List Str) (h : ps ≠ []) :
    dropTrailingEmpty (w :: ps) = w :: dropTrailingEmpty ps := by
  cases ps with
  | nil => exact absurd rfl h
  | cons q qs => rfl

theorem countLoop_at_eof {M : Type} (bump : Str → M → M) (ki fuel : Nat) (b line : Str)
    (f : Bool) (m : M) : countLoop bump ki (fuel + 1) ⟨b, true, f⟩ line m = m := by
  simp [countLoop, getline_at_eof]

theorem countLoop_fresh {M : Type} (bump : Str → M → M) (ki fuel : Nat) (s line : Str)
    (m : M) (hf : s.length + 2 ≤ fuel) :
    countLoop bump ki fuel ⟨s, false, false⟩ line m =
      (dropTrailingEmpty (pieces '\n' s)).foldl (fun acc l => bump (rowKey ki l) acc) m := by
  induction fuel generalizing s line m with
  | zero => omega
  | succ fuel ih =>
    rcases hr : readUntil '\n' s with ⟨w, _ | r⟩
    · rw [countLoop, getline_none _ _ _ _ hr, readUntil_none _ _ _ hr]
      by_cases hw : w = []
      · simp [hw, dropTrailingEmpty]
      · have hw2 : w.isEmpty = false := by simpa using hw
        simp only [hw2]
        obtain ⟨fuel2, rfl⟩ : ∃ k, fuel = k + 1 := ⟨fuel - 1, by omega⟩
        simp [countLoop_at_eof, dropTrailingEmpty, hw]
    · rw [countLoop, getline_some _ _ _ _ _ hr, readUntil_some _ _ _ _ hr]
      have hl := readUntil_length _ _ _ _ hr
      simp only [Bool.false_eq_true, if_false]
      rw [ih r w _ (by omega), dropTrailingEmpty_cons _ _ (pieces_ne_nil _ _)]
      simp

/-- The position the program resolves for a key field name in a file. -/
theorem buildIndex_eq {M : Type} (empty : M) (bump : Str → M → M) (text key : Str) :
    buildIndex empty bump (some text) key =
      (dataRows text).foldl
        (fun acc l => bump (rowKey (findIndex key (headersOf (headerLine text))) l) acc)
        empty := by
  unfold buildIndex IStream.ofString dataRows headerLine fileLines
  rcases hr : readUntil '\n' text with ⟨w, _ | r⟩
  · simp only [getline_none _ _ _ _ hr, readUntil_none _ _ _ hr, List.length_nil]
    rw [countLoop_at_eof]
    by_cases hw : w = [] <;> simp [dropTrailingEmpty, hw]
  · simp only [getline_some _ _ _ _ _ hr, readUntil_some _ _ _ _ hr]
    rw [countLoop_fresh _ _ _ _ _ _ (le_refl _),
      dropTrailingEmpty_cons _ _ (pieces_ne_nil _ _)]
    simp

/-! ## The ordered map -/

theorem nextCount_zero : nextCount 0 = 1 := by decide

theorem nextCount_wrapInt32 (x : Int) : nextCount (wrapInt32 x) = wrapInt32 (x + 1) := by
  unfold nextCount wrapInt32
  omega

/-- The increment of the largest `int` gives the smallest one. -/
theorem nextCount_max : nextCount 2147483647 = -2147483648 := by decide

theorem wrapInt32_of_lt (c : Nat) (h : c < 2147483648) : wrapInt32 (c : Int) = (c : Int) := by
  unfold wrapInt32
  omega

theorem omap_increment_nil (k : Str) : OrderedMap.increment k [] = [(k, 1)] := by
  simp [OrderedMap.increment, OrderedMap.insertDefault, OrderedMap.valueAt, OrderedMap.assign,
    nextCount_zero]

theorem omap_increment_cons (k : Str) (e : Entry) (rest : List Entry) :
    OrderedMap.increment k (e :: rest) =
      if k < e.1 then (k, 1) :: e :: rest
      else if e.1 < k then e :: OrderedMap.increment k rest
      else (e.1, nextCount e.2) :: rest := by
  unfold OrderedMap.increment
  by_cases h1 : k < e.1
  · simp [OrderedMap.insertDefault, OrderedMap.valueAt, OrderedMap.assign, h1, lt_irrefl,
      nextCount_zero]
  · by_cases h2 : e.1 < k
    · simp [OrderedMap.insertDefault, OrderedMap.valueAt, OrderedMap.assign, h1, h2]
    · simp [OrderedMap.insertDefault, OrderedMap.valueAt, OrderedMap.assign, h1, h2]

theorem omap_keys_increment (k : Str) (m : List Entry) :
    ∀ x ∈ (OrderedMap.increment k m).map Prod.fst, x = k ∨ x ∈ m.map Prod.fst := by
  induction m with
  | nil => simp [omap_increment_nil]
  | cons e rest ih =>
    intro x hx
    rw [omap_increment_cons] at hx
    split_ifs at hx with h1 h2
    · simp only [List.map_cons, List.mem_cons] at hx ⊢
      tauto
    · simp only [List.map_cons, List.mem_cons] at hx ⊢
      rcases hx with hx | hx
      · tauto
      · rcases ih x hx with h | h <;> tauto
    · simp only [List.map_cons, List.mem_cons] at hx ⊢
      tauto

theorem omap_WF_cons {e : Entry} {rest : List Entry} (h : OrderedMap.WF (e :: rest)) :
    (∀ x ∈ rest, e.1 < x.1) ∧ OrderedMap.WF rest := by
  unfold OrderedMap.WF keysOf at h ⊢
  simp only [List.map_cons, List.pairwise_cons, List.mem_map, forall_exists_index,
    and_imp, forall_apply_eq_imp_iff₂] at h
  exact h

theorem omap_WF_increment (k : Str) (m : List Entry) (h : OrderedMap.WF m) :
    OrderedMap.WF (OrderedMap.increment k m) := by
  induction m with
  | nil => simp [omap_increment_nil, OrderedMap.WF, keysOf]
  | cons e rest ih =>
    obtain ⟨hlt, hrest⟩ := omap_WF_cons h
    rw [omap_increment_cons]
    split_ifs with h1 h2
    · unfold OrderedMap.WF keysOf at h ⊢
      simp only [List.map_cons, List.pairwise_cons] at h ⊢
      refine ⟨?_, h⟩
      intro x hx
      rcases List.mem_cons.mp hx with rfl | hx
      · exact h1
      · exact lt_trans h1 (h.1 x hx)
    · have ih2 := ih hrest
      unfold OrderedMap.WF keysOf at ih2 ⊢
      simp only [List.map_cons, List.pairwise_cons]
      refine ⟨?_, ih2⟩
      intro x hx
      rcases omap_keys_increment k rest x hx with rfl | hx
      · exact h2
      · obtain ⟨y, hy, rfl⟩ := List.mem_map.mp hx
        exact hlt y hy
    · unfold OrderedMap.WF keysOf at h ⊢
      simpa using h

theorem omap_valueAt_of_mem (k : Str) (v : Int) (m : List Entry)
    (h : OrderedMap.WF m) (hm : (k, v) ∈ m) : OrderedMap.valueAt k m = v := by
  induction m with
  | nil => simp at hm
  | cons e rest ih =>
    obtain ⟨hlt, hrest⟩ := omap_WF_cons h
    unfold OrderedMap.valueAt
    rcases List.mem_cons.mp hm with rfl | hm
    · simp [lt_irrefl]
    · have h1 : e.1 < k := hlt _ hm
      simp [h1, not_lt_of_lt h1, ih hrest hm]

theorem omap_valueAt_of_not_mem (k : Str) (m : List Entry)
    (hm : k ∉ keysOf m) : OrderedMap.valueAt k m = 0 := by
  induction m with
  | nil => rfl
  | cons e rest ih =>
    unfold OrderedMap.valueAt
    simp only [keysOf, List.map_cons, List.mem_cons, not_or] at hm
    split_ifs with h1 h2
    · rfl
    · exact ih hm.2
    · exact absurd (le_antisymm (not_lt.mp h2) (not_lt.mp h1)) hm.1

theorem omap_mem_increment (k' : Str) (m : List Entry) (h : OrderedMap.WF m)
    (k : Str) (n : Int) :
    (k, n) ∈ OrderedMap.increment k' m ↔
      (k ≠ k' ∧ (k, n) ∈ m) ∨ (k = k' ∧ n = nextCount (OrderedMap.valueAt k' m)) := by
  induction m with
  | nil =>
    simp only [omap_increment_nil, List.mem_singleton, Prod.mk.injEq,
      OrderedMap.valueAt, List.not_mem_nil, and_false, false_or, nextCount_zero]
  | cons e rest ih =>
    obtain ⟨hlt, hrest⟩ := omap_WF_cons h
    rw [omap_increment_cons]
    unfold OrderedMap.valueAt
    by_cases h1 : k' < e.1
    · simp only [h1, if_true, List.mem_cons, Prod.mk.injEq, nextCount_zero]
      constructor
      · rintro (⟨rfl, rfl⟩ | rfl | hm)
        · exact Or.inr ⟨rfl, rfl⟩
        · exact Or.inl ⟨fun hk => lt_irrefl _ (hk ▸ h1), Or.inl rfl⟩
        · refine Or.inl ⟨fun hk => ?_, Or.inr hm⟩
          subst hk
          exact lt_irrefl _ (lt_trans h1 (hlt _ hm))
      · rintro (⟨_, hm⟩ | ⟨rfl, rfl⟩)
        · exact Or.inr hm
        · exact Or.inl ⟨rfl, rfl⟩
    · by_cases h2 : e.1 < k'
      · simp only [h1, h2, if_true, if_false, List.mem_cons, ih hrest]
        constructor
        · rintro (rfl | ⟨hk, hm⟩ | ⟨rfl, rfl⟩)
          · exact Or.inl ⟨fun hk => lt_irrefl _ (hk ▸ h2), Or.inl rfl⟩
          · exact Or.inl ⟨hk, Or.inr hm⟩
          · exact Or.inr ⟨rfl, rfl⟩
        · rintro (⟨hk, rfl | hm⟩ | ⟨rfl, rfl⟩)
          · exact Or.inl rfl
          · exact Or.inr (Or.inl ⟨hk, hm⟩)
          · exact Or.inr (Or.inr ⟨rfl, rfl⟩)
      · have hk : e.1 = k' := le_antisymm (not_lt.mp h1) (not_lt.mp h2)
        simp only [h1, h2, if_false, List.mem_cons, Prod.mk.injEq]
        constructor
        · rintro (⟨rfl, rfl⟩ | hm)
          · exact Or.inr ⟨hk, rfl⟩
          · refine Or.inl ⟨fun hkk => ?_, Or.inr hm⟩
            subst hkk
            exact lt_irrefl _ (hk ▸ hlt _ hm)
        · rintro (⟨hkk, rfl | hm⟩ | ⟨rfl, rfl⟩)
          · exact absurd hk hkk
          · exact Or.inr hm
          · exact Or.inl ⟨hk.symm, rfl⟩

theorem omap_sum_increment (k : Str) (m : List Entry) :
    ((OrderedMap.increment k m).map Prod.snd).sum =
      (m.map Prod.snd).sum - OrderedMap.valueAt k m + nextCount (OrderedMap.valueAt k m) := by
  induction m with
  | nil => simp [omap_increment_nil, OrderedMap.valueAt, nextCount_zero]
  | cons e rest ih =>
    rw [omap_increment_cons]
    unfold OrderedMap.valueAt
    split_ifs with h1 h2
    · simp only [List.map_cons, List.sum_cons, nextCount_zero]; ring
    · simp only [List.map_cons, List.sum_cons, ih]; ring
    · simp only [List.map_cons, List.sum_cons]; ring

/-! ## The unordered map -/

theorem umap_contains_iff (k : Str) (m : List Entry) :
    UnorderedMap.contains k m = true ↔ k ∈ keysOf m := by
  induction m with
  | nil => simp [UnorderedMap.contains, keysOf]
  | cons e rest ih =>
    unfold UnorderedMap.contains
    by_cases h : e.1 = k
    · simp [h, keysOf]
    · simp only [h, if_false, ih, keysOf, List.map_cons, List.mem_cons]
      constructor
      · exact Or.inr
      · rintro (h2 | h2)
        · exact absurd h2.symm h
        · exact h2

theorem umap_WF_cons {e : Entry} {rest : List Entry}
    (h : UnorderedMap.WF (e :: rest)) : e.1 ∉ keysOf rest ∧ UnorderedMap.WF rest := by
  unfold UnorderedMap.WF keysOf at h ⊢
  simpa using h

theorem mem_keysOf_of_mem {k : Str} {v : Int} {m : List Entry} (h : (k, v) ∈ m) :
    k ∈ keysOf m :=
  List.mem_map.mpr ⟨(k, v), h, rfl⟩

theorem umap_valueAt_of_mem (k : Str) (v : Int) (m : List Entry)
    (h : UnorderedMap.WF m) (hm : (k, v) ∈ m) : UnorderedMap.valueAt k m = v := by
  induction m with
  | nil => simp at hm
  | cons e rest ih =>
    obtain ⟨hne, hrest⟩ := umap_WF_cons h
    unfold UnorderedMap.valueAt
    rcases List.mem_cons.mp hm with rfl | hm
    · simp
    · have h1 : e.1 ≠ k := fun hk => hne (hk ▸ mem_keysOf_of_mem hm)
      simp [h1, ih hrest hm]

theorem umap_valueAt_of_not_mem (k : Str) (m : List Entry)
    (hm : k ∉ keysOf m) : UnorderedMap.valueAt k m = 0 := by
  induction m with
  | nil => rfl
  | cons e rest ih =>
    unfold UnorderedMap.valueAt
    simp only [keysOf, List.map_cons, List.mem_cons, not_or] at hm
    have h1 : e.1 ≠ k := fun hk => hm.1 hk.symm
    simp only [h1, if_false]
    exact ih hm.2

theorem umap_keys_assign (k : Str) (v : Int) (m : List Entry) :
    keysOf (UnorderedMap.assign k v m) = keysOf m := by
  induction m with
  | nil => rfl
  | cons e rest ih =>
    unfold UnorderedMap.assign
    unfold keysOf at ih ⊢
    split_ifs <;> simp [ih]

theorem umap_mem_assign (k' : Str) (v : Int) (m : List Entry)
    (h : UnorderedMap.WF m) (hk' : k' ∈ keysOf m) (k : Str) (n : Int) :
    (k, n) ∈ UnorderedMap.assign k' v m ↔ (k ≠ k' ∧ (k, n) ∈ m) ∨ (k = k' ∧ n = v) := by
  induction m with
  | nil => simp [keysOf] at hk'
  | cons e rest ih =>
    obtain ⟨hne, hrest⟩ := umap_WF_cons h
    unfold UnorderedMap.assign
    by_cases h1 : e.1 = k'
    · simp only [h1, if_true, List.mem_cons, Prod.mk.injEq]
      constructor
      · rintro (⟨rfl, rfl⟩ | hm)
        · exact Or.inr ⟨rfl, rfl⟩
        · refine Or.inl ⟨fun hk => hne ?_, Or.inr hm⟩
          rw [h1, ← hk]
          exact mem_keysOf_of_mem hm
      · rintro (⟨hk, rfl | hm⟩ | ⟨rfl, rfl⟩)
        · exact absurd h1 hk
        · exact Or.inr hm
        · exact Or.inl ⟨rfl, rfl⟩
    · have hk2 : k' ∈ keysOf rest := by
        simp only [keysOf, List.map_cons, List.mem_cons] at hk'
        rcases hk' with hk' | hk'
        · exact absurd hk'.symm h1
        · exact hk'
      simp only [h1, if_false, List.mem_cons, ih hrest hk2]
      constructor
      · rintro (rfl | ⟨hk, hm⟩ | ⟨rfl, rfl⟩)
        · exact Or.inl ⟨h1, Or.inl rfl⟩
        · exact Or.inl ⟨hk, Or.inr hm⟩
        · exact Or.inr ⟨rfl, rfl⟩
      · rintro (⟨hk, rfl | hm⟩ | ⟨rfl, rfl⟩)
        · exact Or.inl rfl
        · exact Or.inr (Or.inl ⟨hk, hm⟩)
        · exact Or.inr (Or.inr ⟨rfl, rfl⟩)

theorem umap_sum_assign (k : Str) (v : Int) (m : List Entry)
    (hk : k ∈ keysOf m) :
    ((UnorderedMap.assign k v m).map Prod.snd).sum =
      (m.map Prod.snd).sum - UnorderedMap.valueAt k m + v := by
  induction m with
  | nil => simp [keysOf] at hk
  | cons e rest ih =>
    unfold UnorderedMap.assign UnorderedMap.valueAt
    by_cases h1 : e.1 = k
    · simp only [h1, if_true, List.map_cons, List.sum_cons]; ring
    · have hk2 : k ∈ keysOf rest := by
        simp only [keysOf, List.map_cons, List.mem_cons] at hk
        rcases hk with hk | hk
        · exact absurd hk.symm h1
        · exact hk
      simp only [h1, if_false, List.map_cons, List.sum_cons, ih hk2]; ring

theorem umap_insertDefault_perm (H : HashLayout) (k : Str) (m : List Entry) :
    List.Perm (UnorderedMap.insertDefault H k m) (if k ∈ keysOf m then m else (k, 0) :: m) := by
  unfold UnorderedMap.insertDefault
  by_cases h : k ∈ keysOf m
  · simp [(umap_contains_iff k m).mpr h, h]
  · have : UnorderedMap.contains k m = false := by
      rw [← Bool.not_eq_true, umap_contains_iff]; exact h
    simp only [this, h, if_false, Bool.false_eq_true]
    exact H.perm _

theorem umap_WF_insertDefault (H : HashLayout) (k : Str) (m : List Entry)
    (h : UnorderedMap.WF m) : UnorderedMap.WF (UnorderedMap.insertDefault H k m) := by
  have hp := umap_insertDefault_perm H k m
  unfold UnorderedMap.WF keysOf at h ⊢
  rw [(hp.map Prod.fst).nodup_iff]
  by_cases hk : k ∈ keysOf m
  · simpa [hk] using h
  · simp only [hk, if_false, List.map_cons, List.nodup_cons]
    exact ⟨hk, h⟩

theorem umap_mem_keys_insertDefault (H : HashLayout) (k : Str) (m : List Entry) :
    k ∈ keysOf (UnorderedMap.insertDefault H k m) := by
  have hp := umap_insertDefault_perm H k m
  unfold keysOf
  rw [(hp.map Prod.fst).mem_iff]
  by_cases hk : k ∈ keysOf m
  · rw [if_pos hk]; exact hk
  · simp [hk]

theorem umap_valueAt_insertDefault (H : HashLayout) (k : Str) (m : List Entry)
    (h : UnorderedMap.WF m) :
    UnorderedMap.valueAt k (UnorderedMap.insertDefault H k m) = UnorderedMap.valueAt k m := by
  have hp := umap_insertDefault_perm H k m
  by_cases hk : k ∈ keysOf m
  · have : UnorderedMap.contains k m = true := (umap_contains_iff k m).mpr hk
    simp [UnorderedMap.insertDefault, this]
  · rw [umap_valueAt_of_not_mem k m hk]
    apply umap_valueAt_of_mem k 0 _ (umap_WF_insertDefault H k m h)
    rw [hp.mem_iff]
    simp [hk]

theorem umap_WF_increment (H : HashLayout) (k : Str) (m : List Entry)
    (h : UnorderedMap.WF m) : UnorderedMap.WF (UnorderedMap.increment H k m) := by
  unfold UnorderedMap.increment UnorderedMap.WF
  rw [umap_keys_assign]
  exact umap_WF_insertDefault H k m h

theorem umap_mem_increment (H : HashLayout) (k' : Str) (m : List Entry)
    (h : UnorderedMap.WF m) (k : Str) (n : Int) :
    (k, n) ∈ UnorderedMap.increment H k' m ↔
      (k ≠ k' ∧ (k, n) ∈ m) ∨ (k = k' ∧ n = nextCount (UnorderedMap.valueAt k' m)) := by
  unfold UnorderedMap.increment
  rw [umap_mem_assign k' _ _ (umap_WF_insertDefault H k' m h)
    (umap_mem_keys_insertDefault H k' m), umap_valueAt_insertDefault H k' m h,
    (umap_insertDefault_perm H k' m).mem_iff]
  by_cases hk : k' ∈ keysOf m
  · simp [hk]
  · simp only [hk, if_false, List.mem_cons, Prod.mk.injEq]
    constructor
    · rintro (⟨hne, ⟨rfl, _⟩ | hm⟩ | hr)
      · exact absurd rfl hne
      · exact Or.inl ⟨hne, hm⟩
      · exact Or.inr hr
    · rintro (⟨hne, hm⟩ | hr)
      · exact Or.inl ⟨hne, Or.inr hm⟩
      · exact Or.inr hr

theorem umap_sum_increment (H : HashLayout) (k : Str) (m : List Entry)
    (h : UnorderedMap.WF m) :
    ((UnorderedMap.increment H k m).map Prod.snd).sum =
      (m.map Prod.snd).sum - UnorderedMap.valueAt k m +
        nextCount (UnorderedMap.valueAt k m) := by
  unfold UnorderedMap.increment
  rw [umap_sum_assign k _ _ (umap_mem_keys_insertDefault H k m),
    umap_valueAt_insertDefault H k m h]
  have hp := umap_insertDefault_perm H k m
  have hs : ((UnorderedMap.insertDefault H k m).map Prod.snd).sum = (m.map Prod.snd).sum := by
    rw [(hp.map Prod.snd).sum_eq]
    by_cases hk : k ∈ keysOf m <;> simp [hk]
  rw [hs]

/-! ## Counting -/

theorem WrapTally.nil : WrapTally [] [] := by
  intro k n
  simp

theorem WrapTally.mem_keys_iff {m : List Entry} {ks : List Str} (ht : WrapTally m ks)
    (k : Str) : k ∈ keysOf m ↔ k ∈ ks := by
  constructor
  · intro hk
    obtain ⟨e, he, rfl⟩ := List.mem_map.mp hk
    exact ((ht e.1 e.2).mp he).1
  · intro hk
    exact mem_keysOf_of_mem ((ht k _).mpr ⟨hk, rfl⟩)

theorem WrapTally.step {m m' : List Entry} {ks : List Str} {k' : Str} (ht : WrapTally m ks)
    (hb : ∀ k n, (k, n) ∈ m' ↔
      (k ≠ k' ∧ (k, n) ∈ m) ∨ (k = k' ∧ n = nextCount (wrapInt32 (ks.count k' : Int)))) :
    WrapTally m' (ks ++ [k']) := by
  intro k n
  rw [hb, List.count_append, List.mem_append, List.mem_singleton]
  by_cases hk : k = k'
  · subst hk
    simp only [ne_eq, not_true_eq_false, false_and, true_and, false_or, or_true,
      List.count_singleton_self, Nat.cast_add, Nat.cast_one, nextCount_wrapInt32]
  · have hc : List.count k [k'] = 0 := by
      rw [List.count_singleton]
      simp [Ne.symm hk]
    simp only [ne_eq, hk, not_false_eq_true, true_and, false_and, or_false, hc, Nat.cast_add,
      Nat.cast_zero, add_zero]
    exact ht k n

theorem wrapInt32_zero : wrapInt32 ((0 : Nat) : Int) = 0 := by decide

theorem omap_valueAt_tally {m : List Entry} {ks : List Str} (hw : OrderedMap.WF m)
    (ht : WrapTally m ks) (k : Str) :
    OrderedMap.valueAt k m = wrapInt32 (ks.count k : Int) := by
  by_cases hk : k ∈ ks
  · exact omap_valueAt_of_mem k _ m hw ((ht k _).mpr ⟨hk, rfl⟩)
  · rw [omap_valueAt_of_not_mem k m (fun h => hk ((ht.mem_keys_iff k).mp h)),
      List.count_eq_zero_of_not_mem hk, wrapInt32_zero]

theorem umap_valueAt_tally {m : List Entry} {ks : List Str} (hw : UnorderedMap.WF m)
    (ht : WrapTally m ks) (k : Str) :
    UnorderedMap.valueAt k m = wrapInt32 (ks.count k : Int) := by
  by_cases hk : k ∈ ks
  · exact umap_valueAt_of_mem k _ m hw ((ht k _).mpr ⟨hk, rfl⟩)
  · rw [umap_valueAt_of_not_mem k m (fun h => hk ((ht.mem_keys_iff k).mp h)),
      List.count_eq_zero_of_not_mem hk, wrapInt32_zero]

/-- Below `2^31` occurrences no counter has wrapped: the map holds the exact counts. -/
theorem WrapTally.exact {m : List Entry} {ks : List Str} (ht : WrapTally m ks)
    (hb : ks.length < 2147483648) : Tally m ks := by
  intro k n
  have hle : ks.count k ≤ ks.length := List.count_le_length _ _
  rw [ht k n, wrapInt32_of_lt _ (by omega)]
  constructor
  · rintro ⟨hk, rfl⟩
    have hpos : 0 < ks.count k := List.count_pos_iff.mpr hk
    exact ⟨by omega, rfl⟩
  · rintro ⟨hpos, rfl⟩
    refine ⟨List.count_pos_iff.mp (by omega), rfl⟩

theorem omap_foldl_increment (ks ks0 : List Str) (m : List Entry)
    (hw : OrderedMap.WF m) (ht : WrapTally m ks0) :
    OrderedMap.WF (ks.foldl (fun acc k => OrderedMap.increment k acc) m) ∧
      WrapTally (ks.foldl (fun acc k => OrderedMap.increment k acc) m) (ks0 ++ ks) := by
  induction ks generalizing ks0 m with
  | nil => simpa using ⟨hw, ht⟩
  | cons k ks ih =>
    have hstep : WrapTally (OrderedMap.increment k m) (ks0 ++ [k]) := by
      apply ht.step
      intro k2 n
      rw [omap_mem_increment k m hw, omap_valueAt_tally hw ht]
    have := ih (ks0 ++ [k]) _ (omap_WF_increment k m hw) hstep
    simpa using this

theorem umap_foldl_increment (H : HashLayout) (ks ks0 : List Str) (m : List Entry)
    (hw : UnorderedMap.WF m) (ht : WrapTally m ks0) :
    UnorderedMap.WF (ks.foldl (fun acc k => UnorderedMap.increment H k acc) m) ∧
      WrapTally (ks.foldl (fun acc k => UnorderedMap.increment H k acc) m) (ks0 ++ ks) := by
  induction ks generalizing ks0 m with
  | nil => simpa using ⟨hw, ht⟩
  | cons k ks ih =>
    have hstep : WrapTally (UnorderedMap.increment H k m) (ks0 ++ [k]) := by
      apply ht.step
      intro k2 n
      rw [umap_mem_increment H k m hw, umap_valueAt_tally hw ht]
    have := ih (ks0 ++ [k]) _ (umap_WF_increment H k m hw) hstep
    simpa using this

theorem omap_sum_foldl (ks ks0 : List Str) (m : List Entry)
    (hw : OrderedMap.WF m) (ht : WrapTally m ks0)
    (hb : ks0.length + ks.length < 2147483648) :
    sumCounts (ks.foldl (fun acc k => OrderedMap.increment k acc) m) =
      sumCounts m + ks.length := by
  induction ks generalizing ks0 m with
  | nil => simp
  | cons k ks ih =>
    have hstep : WrapTally (OrderedMap.increment k m) (ks0 ++ [k]) := by
      apply ht.step
      intro k2 n
      rw [omap_mem_increment k m hw, omap_valueAt_tally hw ht]
    simp only [List.length_cons] at hb
    rw [List.foldl_cons, ih (ks0 ++ [k]) _ (omap_WF_increment k m hw) hstep
      (by simp only [List.length_append, List.length_singleton]; omega)]
    have hle : ks0.count k ≤ ks0.length := List.count_le_length _ _
    unfold sumCounts
    rw [omap_sum_increment, omap_valueAt_tally hw ht, nextCount_wrapInt32,
      wrapInt32_of_lt _ (by omega), List.length_cons]
    have h2 : wrapInt32 ((ks0.count k : Int) + 1) = (ks0.count k : Int) + 1 := by
      have := wrapInt32_of_lt (ks0.count k + 1) (by omega)
      simpa using this
    rw [h2]
    push_cast
    ring

theorem umap_sum_foldl (H : HashLayout) (ks ks0 : List Str) (m : List Entry)
    (hw : UnorderedMap.WF m) (ht : WrapTally m ks0)
    (hb : ks0.length + ks.length < 2147483648) :
    sumCounts (ks.foldl (fun acc k => UnorderedMap.increment H k acc) m) =
      sumCounts m + ks.length := by
  induction ks generalizing ks0 m with
  | nil => simp
  | cons k ks ih =>
    have hstep : WrapTally (UnorderedMap.increment H k m) (ks0 ++ [k]) := by
      apply ht.step
      intro k2 n
      rw [umap_mem_increment H k m hw, umap_valueAt_tally hw ht]
    simp only [List.length_cons] at hb
    rw [List.foldl_cons, ih (ks0 ++ [k]) _ (umap_WF_increment H k m hw) hstep
      (by simp only [List.length_append, List.length_singleton]; omega)]
    have hle : ks0.count k ≤ ks0.length := List.count_le_length _ _
    unfold sumCounts
    rw [umap_sum_increment H k m hw, umap_valueAt_tally hw ht, nextCount_wrapInt32,
      wrapInt32_of_lt _ (by omega), List.length_cons]
    have h2 : wrapInt32 ((ks0.count k : Int) + 1) = (ks0.count k : Int) + 1 := by
      have := wrapInt32_of_lt (ks0.count k + 1) (by omega)
      simpa using this
    rw [h2]
    push_cast
    ring

theorem createOrderedMap_eq (text key : Str) :
    createOrderedMap (some text) key =
      (countedKeys text key).foldl (fun acc k => OrderedMap.increment k acc) [] := by
  unfold createOrderedMap countedKeys keyIndexOf
  rw [buildIndex_eq, List.foldl_map]

theorem createUnorderedMap_eq (H : HashLayout) (text key : Str) :
    createUnorderedMap H (some text) key =
      (countedKeys text key).foldl (fun acc k => UnorderedMap.increment H k acc) [] := by
  unfold createUnorderedMap countedKeys keyIndexOf
  rw [buildIndex_eq, List.foldl_map]

theorem createOrderedMap_WF (text key : Str) :
    OrderedMap.WF (createOrderedMap (some text) key) := by
  rw [createOrderedMap_eq]
  exact (omap_foldl_increment _ [] [] (by simp [OrderedMap.WF, keysOf]) WrapTally.nil).1

theorem createOrderedMap_tally (text key : Str) :
    WrapTally (createOrderedMap (some text) key) (countedKeys text key) := by
  rw [createOrderedMap_eq]
  simpa using
    (omap_foldl_increment (countedKeys text key) [] []
      (by simp [OrderedMap.WF, keysOf]) WrapTally.nil).2

theorem createUnorderedMap_WF (H : HashLayout) (text key : Str) :
    UnorderedMap.WF (createUnorderedMap H (some text) key) := by
  rw [createUnorderedMap_eq]
  exact (umap_foldl_increment H _ [] [] (by simp [UnorderedMap.WF, keysOf]) WrapTally.nil).1

theorem createUnorderedMap_tally (H : HashLayout) (text key : Str) :
    WrapTally (createUnorderedMap H (some text) key) (countedKeys text key) := by
  rw [createUnorderedMap_eq]
  simpa using
    (umap_foldl_increment H (countedKeys text key) [] []
      (by simp [UnorderedMap.WF, keysOf]) WrapTally.nil).2

theorem omap_WF_nodup {m : List Entry} (h : OrderedMap.WF m) : (keysOf m).Nodup := by
  unfold OrderedMap.WF at h
  exact h.imp (fun hab => ne_of_lt hab)

/-! ## Resolving the key position -/

theorem findIndex_le_length (key : Str) (l : List Str) : findIndex key l ≤ l.length := by
  induction l with
  | nil => simp [findIndex]
  | cons q ps ih =>
    unfold findIndex
    split_ifs <;> simp [ih]

theorem findIndex_of_mem (key : Str) (l : List Str) (h : key ∈ l) :
    findIndex key l < l.length := by
  induction l with
  | nil => simp at h
  | cons q ps ih =>
    unfold findIndex
    by_cases hq : q = key
    · simp [hq]
    · rcases List.mem_cons.mp h with h | h
      · exact absurd h.symm hq
      · simp [hq, ih h]

theorem two_pow_31 : (2 : Nat) ^ 31 = 2147483648 := by norm_num

theorem countedKeys_length (text key : Str) :
    (countedKeys text key).length = (dataRows text).length := by
  simp [countedKeys]

theorem createOrderedMap_sum (text key : Str) (hb : (dataRows text).length < 2 ^ 31) :
    sumCounts (createOrderedMap (some text) key) = ((dataRows text).length : Int) := by
  have hb2 : ([] : List Str).length + (countedKeys text key).length < 2147483648 := by
    rw [List.length_nil, Nat.zero_add, countedKeys_length, ← two_pow_31]
    exact hb
  rw [createOrderedMap_eq, omap_sum_foldl _ [] [] (by simp [OrderedMap.WF, keysOf])
    WrapTally.nil hb2]
  simp [sumCounts, countedKeys]

theorem createUnorderedMap_sum (H : HashLayout) (text key : Str)
    (hb : (dataRows text).length < 2 ^ 31) :
    sumCounts (createUnorderedMap H (some text) key) = ((dataRows text).length : Int) := by
  have hb2 : ([] : List Str).length + (countedKeys text key).length < 2147483648 := by
    rw [List.length_nil, Nat.zero_add, countedKeys_length, ← two_pow_31]
    exact hb
  rw [createUnorderedMap_eq, umap_sum_foldl H _ [] [] (by simp [UnorderedMap.WF, keysOf])
    WrapTally.nil hb2]
  simp [sumCounts, countedKeys]

theorem validRows_add_shortRows (text key : Str) :
    validRows text key + shortRows text key = (dataRows text).length := by
  unfold validRows shortRows
  generalize dataRows text = rows
  induction rows with
  | nil => rfl
  | cons r rs ih =>
    simp only [List.countP_cons, List.length_cons, decide_eq_true_eq]
    by_cases h : keyIndexOf text key < (fields r).length
    · have h2 : ¬ (fields r).length ≤ keyIndexOf text key := by omega
      simp only [h, h2, if_true, if_false]
      omega
    · have h2 : (fields r).length ≤ keyIndexOf text key := by omega
      simp only [h, h2, if_true, if_false]
      omega

/-- C2, as stated, fails: under the header `a<TAB>b` and the key field `b` the one data
row `x` has no field at position 1, yet both builds count it, so the counts sum to 1 while
no row is valid. -/
theorem sum_counts_valid_rows_counterexample :
    validRows shortRowFile "b".toList = 0 ∧
    sumCounts (createOrderedMap (some shortRowFile) "b".toList) = 1 ∧
    sumCounts (createUnorderedMap HashLayout.front (some shortRowFile) "b".toList) = 1 ∧
    sumCounts (createOrderedMap (some shortRowFile) "b".toList) ≠
      (validRows shortRowFile "b".toList : Int) := by
  decide

/-- C2, amended: for a file of fewer than `2^31` data rows (so that no `int` counter
wraps), the counts of the index built by `createOrderedMap`, and of the one built by
`createUnorderedMap`, sum to the number of data rows of the file, which is the number of
rows that have a field at the resolved key position plus the number of rows too short to
have one. -/
theorem sum_counts_all_rows (H : HashLayout) (text keySignifier : Str)
    (hbound : (dataRows text).length < 2 ^ 31) :
    sumCounts (createOrderedMap (some text) keySignifier) = ((dataRows text).length : Int) ∧
    sumCounts (createUnorderedMap H (some text) keySignifier) =
      ((dataRows text).length : Int) ∧
    ((dataRows text).length : Int) =
      (validRows text keySignifier : Int) + (shortRows text keySignifier : Int) := by
  refine ⟨createOrderedMap_sum text keySignifier hbound,
    createUnorderedMap_sum H text keySignifier hbound, ?_⟩
  rw [← validRows_add_shortRows text keySignifier]
  push_cast
  rfl

/-- C2, amended, on the file `a<TAB>b / x` keyed on `b`: its one data row, though too
short, makes the counts of either index sum to 1. -/
theorem sum_counts_all_rows_witness :
    sumCounts (createOrderedMap (some shortRowFile) "b".toList) = 1 ∧
    sumCounts (createUnorderedMap HashLayout.back (some shortRowFile) "b".toList) = 1 :=
  have h := sum_counts_all_rows HashLayout.back shortRowFile "b".toList (by decide)
  ⟨h.1.trans (by decide), h.2.1.trans (by decide)⟩

/-- C3: for every file (also one that cannot be opened) and every key field name, the
unordered and the ordered index hold the same key-count pairs, and neither holds a key
twice. -/
theorem unordered_ordered_same_mapping (H : HashLayout) (file : Option Str)
    (keySignifier : Str) :
    (∀ k n, (k, n) ∈ createUnorderedMap H file keySignifier ↔
      (k, n) ∈ createOrderedMap file keySignifier) ∧
    (keysOf (createUnorderedMap H file keySignifier)).Nodup ∧
    (keysOf (createOrderedMap file keySignifier)).Nodup := by
  cases file with
  | none => simp [createUnorderedMap, createOrderedMap, buildIndex, keysOf]
  | some text =>
    refine ⟨fun k n => ?_, createUnorderedMap_WF H text keySignifier,
      omap_WF_nodup (createOrderedMap_WF text keySignifier)⟩
    rw [createUnorderedMap_tally H text keySignifier k n,
      createOrderedMap_tally text keySignifier k n]

/-! ## Ranking -/

theorem sortInsert_perm (comp : Entry → Entry → Bool) (x : Entry) (l : List Entry) :
    List.Perm (sortInsert comp x l) (x :: l) := by
  induction l with
  | nil => exact List.Perm.refl _
  | cons y ys ih =>
    unfold sortInsert
    split_ifs
    · exact List.Perm.refl _
    · exact (List.Perm.cons y ih).trans (List.Perm.swap x y ys)

theorem stdSort_foldl_perm (comp : Entry → Entry → Bool) (v acc : List Entry) :
    List.Perm (v.foldl (fun sorted x => sortInsert comp x sorted) acc) (acc ++ v) := by
  induction v generalizing acc with
  | nil => simp
  | cons x xs ih =>
    rw [List.foldl_cons]
    refine (ih _).trans ?_
    refine ((sortInsert_perm comp x acc).append_right xs).trans ?_
    simpa using (@List.perm_middle _ x acc xs).symm

theorem stdSort_perm (comp : Entry → Entry → Bool) (v : List Entry) :
    List.Perm (stdSort comp v) v := by
  simpa [stdSort] using stdSort_foldl_perm comp v []

theorem sortInsert_byStreams_sorted (x : Entry) (l : List Entry)
    (h : l.Pairwise (fun a b => a.2 ≥ b.2)) :
    (sortInsert byStreams x l).Pairwise (fun a b => a.2 ≥ b.2) := by
  induction l with
  | nil => simp [sortInsert]
  | cons y ys ih =>
    obtain ⟨hy, hys⟩ := List.pairwise_cons.mp h
    unfold sortInsert
    by_cases hc : byStreams x y = true
    · simp only [hc, if_true]
      have hxy : x.2 > y.2 := by simpa [byStreams] using hc
      refine List.pairwise_cons.mpr ⟨?_, h⟩
      intro z hz
      rcases List.mem_cons.mp hz with rfl | hz
      · exact le_of_lt hxy
      · exact le_trans (hy z hz) (le_of_lt hxy)
    · simp only [hc, if_false]
      have hxy : x.2 ≤ y.2 := by simpa [byStreams] using hc
      refine List.pairwise_cons.mpr ⟨?_, ih hys⟩
      intro z hz
      rcases List.mem_cons.mp ((sortInsert_perm byStreams x ys).subset hz) with rfl | hz
      · exact hxy
      · exact hy z hz

theorem stdSort_foldl_sorted (v acc : List Entry)
    (h : acc.Pairwise (fun a b => a.2 ≥ b.2)) :
    (v.foldl (fun sorted x => sortInsert byStreams x sorted) acc).Pairwise
      (fun a b => a.2 ≥ b.2) := by
  induction v generalizing acc with
  | nil => simpa using h
  | cons x xs ih =>
    rw [List.foldl_cons]
    exact ih _ (sortInsert_byStreams_sorted x acc h)

theorem stdSort_byStreams_sorted (v : List Entry) :
    (stdSort byStreams v).Pairwise (fun a b => a.2 ≥ b.2) :=
  stdSort_foldl_sorted v [] List.Pairwise.nil

/-- C4: for every index, the ranking returned by `ordered_mapToVector`, and the one
returned by `unordered_mapToVector`, is a rearrangement of the entries of the index (every
pair as often as the index holds it, nothing else), and in it every entry has a count at
least that of the next entry, indeed of every later entry. -/
theorem mapToVector_ranking (inputMap : List Entry) :
    List.Perm (ordered_mapToVector inputMap) inputMap ∧
    List.Chain' (fun a b => a.2 ≥ b.2) (ordered_mapToVector inputMap) ∧
    List.Pairwise (fun a b => a.2 ≥ b.2) (ordered_mapToVector inputMap) ∧
    List.Perm (unordered_mapToVector inputMap) inputMap ∧
    List.Chain' (fun a b => a.2 ≥ b.2) (unordered_mapToVector inputMap) ∧
    List.Pairwise (fun a b => a.2 ≥ b.2) (unordered_mapToVector inputMap) :=
  ⟨stdSort_perm byStreams inputMap, (stdSort_byStreams_sorted inputMap).chain',
    stdSort_byStreams_sorted inputMap, stdSort_perm byStreams inputMap,
    (stdSort_byStreams_sorted inputMap).chain', stdSort_byStreams_sorted inputMap⟩

/-! ## Printing the first entries -/

theorem printVectorLoop_eq (counter : Int) (l : List Entry) (count : Int) (out : List Str) :
    printVectorLoop counter l count out =
      out ++ (l.take (counter - count).toNat).map entryLine := by
  induction l generalizing count out with
  | nil => simp [printVectorLoop]
  | cons pair rest ih =>
    unfold printVectorLoop
    by_cases h : count < counter
    · have hk : (counter - count).toNat = (counter - (count + 1)).toNat + 1 := by omega
      simp only [h, if_true, ih, hk, List.take_succ_cons, List.map_cons,
        List.append_assoc, List.singleton_append]
    · have hk : (counter - count).toNat = 0 := by omega
      simp [h, hk]

theorem printVector_eq_take (inputVector : List Entry) (counter : Int) :
    printVector inputVector counter = (inputVector.take counter.toNat).map entryLine := by
  unfold printVector
  rw [printVectorLoop_eq]
  simp

/-- C5: for every ranking and every integer `n`, `printVector` writes the lines of the
first `min(max(n,0), |ranking|)` entries of the ranking, in order; for `n <= 0` it writes
nothing and for `n` at least the length of the ranking it writes every entry. -/
theorem printVector_first_entries (ranking : List Entry) (n : Int) (k : Nat) :
    printVector ranking n =
      (ranking.take (min (max n 0) (ranking.length : Int)).toNat).map entryLine ∧
    (printVector ranking n).length = (min (max n 0) (ranking.length : Int)).toNat ∧
    printVector ranking (-(k : Int)) = [] ∧
    printVector ranking ((ranking.length : Int) + k) = ranking.map entryLine := by
  have hmin : (min (max n 0) (ranking.length : Int)).toNat = min n.toNat ranking.length := by
    omega
  have htake : ∀ j : Nat, ranking.take (min j ranking.length) = ranking.take j := by
    intro j
    rcases Nat.le_total j ranking.length with h | h
    · rw [Nat.min_eq_left h]
    · rw [Nat.min_eq_right h, List.take_length, List.take_of_length_le h]
  refine ⟨?_, ?_, ?_, ?_⟩
  · rw [printVector_eq_take, hmin, htake]
  · rw [printVector_eq_take, hmin, List.length_map, List.length_take]
  · rw [printVector_eq_take]
    have : (-(k : Int)).toNat = 0 := by omega
    simp [this]
  · rw [printVector_eq_take]
    have : ((ranking.length : Int) + k).toNat = ranking.length + k := by omega
    rw [this, List.take_of_length_le (by omega)]

/-! ## Lookup -/

theorem createOrderedMap_tally_of (file : Option Str) (key : Str) :
    OrderedMap.WF (createOrderedMap file key) ∧
      WrapTally (createOrderedMap file key) (countedKeysOf file key) := by
  cases file with
  | none =>
    refine ⟨by simp [createOrderedMap, buildIndex, OrderedMap.WF, keysOf], ?_⟩
    simpa [createOrderedMap, buildIndex, countedKeysOf] using WrapTally.nil
  | some text => exact ⟨createOrderedMap_WF text key, createOrderedMap_tally text key⟩

/-- C7 fails on the code: after both song maps were built from the sample export, a
search for `Song C`, which no row names, answers not found and leaves the entry
`(Song C, 0)` in the map searched, so the state changes and the listing of all songs has
one more line, `Song C: 0`. -/
theorem search_miss_inserts_zero_entry :
    (searchOrderedRequest 1 "Song C".toList sampleSession).2 =
      ["Song Title Not Found!".toList] ∧
    (searchOrderedRequest 1 "Song C".toList sampleSession).1 ≠ sampleSession ∧
    (searchOrderedRequest 1 "Song C".toList sampleSession).1.songMap =
      [("Song A".toList, 2), ("Song B".toList, 1), ("Song C".toList, 0)] ∧
    outputOrderedRequest 3 0 sampleSession = ["Song A: 2".toList, "Song B: 1".toList] ∧
    outputOrderedRequest 3 0 (searchOrderedRequest 1 "Song C".toList sampleSession).1 =
      ["Song A: 2".toList, "Song B: 1".toList, "Song C: 0".toList] ∧
    (searchUnorderedRequest HashLayout.front 1 "Song C".toList sampleSession).1 ≠
      sampleSession ∧
    ("Song C".toList, (0 : Int)) ∈
      (searchUnorderedRequest HashLayout.front 1 "Song C".toList
        sampleSession).1.songUnorderedMap := by
  decide

/-- C8: a create request for any of the four maps, made while that map holds entries,
leaves all four maps as they were and writes the already-created message; nothing is
read from the file. -/
theorem create_on_populated_map_refused (H : HashLayout) (directory : Option Str)
    (s : Session) :
    (s.songUnorderedMap ≠ [] →
      createUnorderedRequest H directory 1 s = (s, alreadyCreated)) ∧
    (s.artistUnorderedMap ≠ [] →
      createUnorderedRequest H directory 2 s = (s, alreadyCreated)) ∧
    (s.songMap ≠ [] → createOrderedRequest directory 1 s = (s, alreadyCreated)) ∧
    (s.artistMap ≠ [] → createOrderedRequest directory 2 s = (s, alreadyCreated)) := by
  refine ⟨?_, ?_, ?_, ?_⟩
  · intro h
    have : s.songUnorderedMap.isEmpty = false := by
      cases hm : s.songUnorderedMap with
      | nil => exact absurd hm h
      | cons e rest => rfl
    simp [createUnorderedRequest, this]
  · intro h
    have : s.artistUnorderedMap.isEmpty = false := by
      cases hm : s.artistUnorderedMap with
      | nil => exact absurd hm h
      | cons e rest => rfl
    simp [createUnorderedRequest, this]
  · intro h
    have : s.songMap.isEmpty = false := by
      cases hm : s.songMap with
      | nil => exact absurd hm h
      | cons e rest => rfl
    simp [createOrderedRequest, this]
  · intro h
    have : s.artistMap.isEmpty = false := by
      cases hm : s.artistMap with
      | nil => exact absurd hm h
      | cons e rest => rfl
    simp [createOrderedRequest, this]

/-- C8 on the state in which both song maps were built from the sample export: a second
request for the ordered song map, and one for the unordered song map, changes nothing. -/
theorem create_on_populated_map_refused_witness :
    createOrderedRequest (some sampleFile) 1 sampleSession = (sampleSession, alreadyCreated) ∧
    createUnorderedRequest HashLayout.back (some twoColumnFile) 1 sampleSession =
      (sampleSession, alreadyCreated) :=
  ⟨(create_on_populated_map_refused HashLayout.back (some sampleFile) sampleSession).2.2.1
      (by decide),
    (create_on_populated_map_refused HashLayout.back (some twoColumnFile) sampleSession).1
      (by decide)⟩

/-- C9: the keys of the index built by `createOrderedMap`, in the order in which
`printOrderedMap` writes its lines, are strictly increasing in the lexicographic order, so
none is repeated; they are the distinct keys counted, sorted, whatever the counts are. -/
theorem ordered_map_keys_increasing (file : Option Str) (keySignifier : Str) :
    List.Pairwise (fun a b => a < b) (keysOf (createOrderedMap file keySignifier)) ∧
    (keysOf (createOrderedMap file keySignifier)).Nodup ∧
    printOrderedMap (createOrderedMap file keySignifier) =
      (createOrderedMap file keySignifier).map entryLine ∧
    keysOf (createOrderedMap file keySignifier) =
      List.insertionSort (fun a b => a ≤ b) (countedKeysOf file keySignifier).dedup := by
  obtain ⟨hw, ht⟩ := createOrderedMap_tally_of file keySignifier
  refine ⟨hw, omap_WF_nodup hw, rfl, ?_⟩
  apply List.eq_of_perm_of_sorted (r := fun a b : Str => a ≤ b)
  · refine ((List.perm_ext_iff_of_nodup (omap_WF_nodup hw) (List.nodup_dedup _)).mpr ?_).trans
      (List.perm_insertionSort _ _).symm
    intro k
    rw [ht.mem_keys_iff, List.mem_dedup]
  · exact List.Pairwise.imp (fun hab => le_of_lt hab) hw
  · exact List.sorted_insertionSort _ _

/-! ## A key field name that the header lacks -/

end SpotifySort
